import Mathlib

/-!
Verification of the DOM-automation campaign engine of the CERTO-WHATSAPPLITE
Chrome extension (file `content/content.js`), via a shallow embedding in Lean.

Strings are modelled as `List Char` (JavaScript strings over the relevant
ASCII inputs).  Asynchronous DOM observations (whether an element is present
at a polling attempt, the title of the open chat, user pause/abort presses)
are modelled as oracle functions supplied to the embedded loops.
-/

/-- JavaScript `String.prototype.trim` whitespace, restricted to the ASCII
whitespace characters that occur in the inputs handled by the extension. -/
def isJsWhitespace (c : Char) : Bool :=
  c == ' ' || c == '\t' || c == '\r' || c == '\n'

/-- `s.trim()`: drop whitespace from both ends. -/
def trimChars (xs : List Char) : List Char :=
  ((xs.dropWhile isJsWhitespace).reverse.dropWhile isJsWhitespace).reverse

/-- `s.split(sep)` for a one-character separator (mirrors JS `String.split`:
the result always has one more chunk than there are separators). -/
def splitOnChar (sep : Char) : List Char → List (List Char)
  | [] => [[]]
  | c :: rest =>
    let r := splitOnChar sep rest
    if c = sep then [] :: r
    else
      match r with
      | h :: t => (c :: h) :: t
      | [] => [[c]]

/-- The character class kept by `replace(/[^\d+]/g, '')`: decimal digits and
the plus sign. -/
def digitOrPlus (c : Char) : Bool :=
  c.isDigit || c == '+'

/-- `normalizePhoneNumber` (content.js, lines 940-967).  Strips every
character other than digits and `+`; if the result does not start with `+`,
prefixes `+` when it starts with `55` and has at least 12 characters, and
`+55` otherwise.  The length validation in the source only logs a warning
and does not change the result, so it is not part of the value model. -/
def normalizePhoneNumber (phone : List Char) : List Char :=
  let digits := phone.filter digitOrPlus
  if digits.head? = some '+' then digits
  else if digits.take 2 = ['5', '5'] ∧ 12 ≤ digits.length then '+' :: digits
  else '+' :: '5' :: '5' :: digits

/-- `STEALTH_CONFIG.maxMessagesPerHour` (content.js, line 481). -/
def maxMessagesPerHour : Nat := 30

/-- One hour in milliseconds (`3600000` in `checkRateLimit`). -/
def oneHourMs : Int := 3600000

/-- The pruning loop of `checkRateLimit` (content.js, lines 498-501):
`while (messageTimestamps.length && messageTimestamps[0] < oneHourAgo)
messageTimestamps.shift()`.  Shifting from the front while the head is too
old is exactly `dropWhile`. -/
def pruneOld (now : Int) (w : List Int) : List Int :=
  w.dropWhile (fun t => decide (t < now - oneHourMs))

/-- `checkRateLimit` (content.js, lines 497-503): prunes entries older than
one hour from the front of the window, then reports whether the window still
has room (`length < maxMessagesPerHour`).  Returns the mutated window
together with the boolean result. -/
def checkRateLimit (now : Int) (w : List Int) : List Int × Bool :=
  let w' := pruneOld now w
  (w', decide (w'.length < maxMessagesPerHour))

/-- `recordMessageSent` (content.js, lines 505-507): pushes the current
timestamp onto the window.  Note that the source performs no pruning here. -/
def recordMessageSent (now : Int) (w : List Int) : List Int :=
  w ++ [now]

-- Basic facts about the helpers.

theorem filter_digitOrPlus_idem (xs : List Char) :
    (xs.filter digitOrPlus).filter digitOrPlus = xs.filter digitOrPlus := by
  induction xs with
  | nil => rfl
  | cons c cs ih =>
    by_cases h : digitOrPlus c = true
    · simp [List.filter_cons, h, ih]
    · simp [List.filter_cons, h, ih]

theorem mem_filter_digitOrPlus {xs : List Char} {c : Char}
    (h : c ∈ xs.filter digitOrPlus) : digitOrPlus c = true :=
  (List.mem_filter.mp h).2

theorem normalizePhoneNumber_head (phone : List Char) :
    (normalizePhoneNumber phone).head? = some '+' := by
  unfold normalizePhoneNumber
  by_cases h1 : (phone.filter digitOrPlus).head? = some '+'
  · rw [if_pos h1]; exact h1
  · rw [if_neg h1]
    by_cases h2 : (phone.filter digitOrPlus).take 2 = ['5', '5']
        ∧ 12 ≤ (phone.filter digitOrPlus).length
    · rw [if_pos h2]; rfl
    · rw [if_neg h2]; rfl

theorem normalizePhoneNumber_chars (phone : List Char) :
    ∀ c ∈ normalizePhoneNumber phone, digitOrPlus c = true := by
  unfold normalizePhoneNumber
  by_cases h1 : (phone.filter digitOrPlus).head? = some '+'
  · rw [if_pos h1]
    intro c hc
    exact mem_filter_digitOrPlus hc
  · rw [if_neg h1]
    by_cases h2 : (phone.filter digitOrPlus).take 2 = ['5', '5']
        ∧ 12 ≤ (phone.filter digitOrPlus).length
    · rw [if_pos h2]
      intro c hc
      rcases List.mem_cons.mp hc with h | hc
      · subst h; rfl
      · exact mem_filter_digitOrPlus hc
    · rw [if_neg h2]
      intro c hc
      rcases List.mem_cons.mp hc with h | hc
      · subst h; rfl
      · rcases List.mem_cons.mp hc with h | hc
        · subst h; rfl
        · rcases List.mem_cons.mp hc with h | hc
          · subst h; rfl
          · exact mem_filter_digitOrPlus hc

theorem filter_eq_self_of_all {p : Char → Bool} {xs : List Char}
    (h : ∀ c ∈ xs, p c = true) : xs.filter p = xs := by
  induction xs with
  | nil => rfl
  | cons c cs ih =>
    have hc := h c (by simp)
    simp [List.filter_cons, hc, ih fun d hd => h d (by simp [hd])]

/-- C10 — Phone-number normalization is idempotent: for every input string
`n`, `normalizePhoneNumber (normalizePhoneNumber n) = normalizePhoneNumber n`. -/
theorem whl_c10_normalize_idempotent (n : List Char) :
    normalizePhoneNumber (normalizePhoneNumber n) = normalizePhoneNumber n := by
  have hchars := normalizePhoneNumber_chars n
  have hfilter : (normalizePhoneNumber n).filter digitOrPlus = normalizePhoneNumber n :=
    filter_eq_self_of_all hchars
  have hhead := normalizePhoneNumber_head n
  show (if ((normalizePhoneNumber n).filter digitOrPlus).head? = some '+' then
      (normalizePhoneNumber n).filter digitOrPlus
    else if ((normalizePhoneNumber n).filter digitOrPlus).take 2 = ['5', '5']
        ∧ 12 ≤ ((normalizePhoneNumber n).filter digitOrPlus).length then
      '+' :: (normalizePhoneNumber n).filter digitOrPlus
    else '+' :: '5' :: '5' :: (normalizePhoneNumber n).filter digitOrPlus) = _
  rw [hfilter, if_pos hhead]

-- Rate-limiter lemmas.

theorem dropWhile_eq_self_of_all_neg {p : Int → Bool} {w : List Int}
    (h : ∀ t ∈ w, p t = false) : w.dropWhile p = w := by
  induction w with
  | nil => rfl
  | cons t rest ih =>
    have ht := h t (by simp)
    simp [List.dropWhile_cons, ht]

theorem dropWhile_eq_nil_of_all_pos {p : Int → Bool} {w : List Int}
    (h : ∀ t ∈ w, p t = true) : w.dropWhile p = [] := by
  induction w with
  | nil => rfl
  | cons t rest ih =>
    have ht := h t (by simp)
    simp only [List.dropWhile_cons, ht, if_pos]
    exact ih fun u hu => h u (by simp [hu])

/-- C6 — The rate limiter is a sliding one-hour window: with the configured
maximum (30) of timestamps recorded within the last hour, `checkRateLimit`
returns `false`; it also returns `false` whenever the pruned window holds
more than the maximum; and once every recorded timestamp is more than one
hour old, it returns `true` again. -/
theorem whl_c6_rate_limit_window :
    (∀ (now : Int) (w : List Int), w.length = maxMessagesPerHour →
      (∀ t ∈ w, now - oneHourMs ≤ t) → (checkRateLimit now w).2 = false)
    ∧ (∀ (now : Int) (w : List Int),
        maxMessagesPerHour < (pruneOld now w).length → (checkRateLimit now w).2 = false)
    ∧ (∀ (now : Int) (w : List Int),
        (∀ t ∈ w, t < now - oneHourMs) → (checkRateLimit now w).2 = true) := by
  refine ⟨?_, ?_, ?_⟩
  · intro now w hlen hin
    have hprune : pruneOld now w = w := by
      apply dropWhile_eq_self_of_all_neg
      intro t ht
      simp [not_lt.mpr (hin t ht)]
    simp [checkRateLimit, hprune, hlen]
  · intro now w hgt
    simp only [checkRateLimit, decide_eq_false_iff_not, not_lt]
    exact le_of_lt hgt
  · intro now w hold
    have hprune : pruneOld now w = [] := by
      apply dropWhile_eq_nil_of_all_pos
      intro t ht
      simp [hold t ht]
    simp [checkRateLimit, hprune, maxMessagesPerHour]

/-- C6 witness: a window of 30 timestamps at time 0 blocks sending at time 0,
and is allowed again at time 7200000 (two hours later). -/
theorem whl_c6_rate_limit_window_witness :
    (checkRateLimit 0 (List.replicate 30 (0 : Int))).2 = false
    ∧ (checkRateLimit 7200000 (List.replicate 30 (0 : Int))).2 = true := by
  constructor
  · exact whl_c6_rate_limit_window.1 0 (List.replicate 30 0) (by decide)
      (by intro t ht; rw [List.eq_of_mem_replicate ht]; decide)
  · exact whl_c6_rate_limit_window.2.2 7200000 (List.replicate 30 0)
      (by intro t ht; rw [List.eq_of_mem_replicate ht]; decide)

/-- C7 counterexample — `recordMessageSent` does not prune: appending the
current timestamp at time 7200000 to a window holding the stale timestamp 0
leaves that stale timestamp (older than one hour) in the window, so
immediately after the call the window does not contain only last-hour
timestamps. -/
theorem whl_c7_counterexample :
    (0 : Int) ∈ recordMessageSent 7200000 [0]
    ∧ (0 : Int) < 7200000 - oneHourMs := by
  constructor
  · simp [recordMessageSent]
  · decide

/-- C7 (amended) — `recordMessageSent` only appends the current timestamp;
the pruning of entries older than one hour is performed by `checkRateLimit`,
after which (on a chronologically ordered window) every remaining timestamp
is within the last hour. -/
theorem whl_c7_amended (now : Int) (w : List Int)
    (hsorted : w.Pairwise (· ≤ ·)) :
    recordMessageSent now w = w ++ [now]
    ∧ (∀ t ∈ (checkRateLimit now w).1, now - oneHourMs ≤ t) := by
  refine ⟨rfl, ?_⟩
  show ∀ t ∈ pruneOld now w, now - oneHourMs ≤ t
  induction w with
  | nil => intro t ht; simp [pruneOld] at ht
  | cons u rest ih =>
    intro t ht
    by_cases hu : u < now - oneHourMs
    · have hstep : pruneOld now (u :: rest) = pruneOld now rest := by
        simp [pruneOld, List.dropWhile_cons, hu]
      rw [hstep] at ht
      exact ih (List.Pairwise.sublist (List.sublist_cons_self u rest) hsorted) t ht
    · have hstep : pruneOld now (u :: rest) = u :: rest := by
        simp [pruneOld, List.dropWhile_cons, hu]
      rw [hstep] at ht
      rcases List.mem_cons.mp ht with h | h
      · subst h; exact not_lt.mp hu
      · have hle : u ≤ t := (List.pairwise_cons.mp hsorted).1 t h
        exact le_trans (not_lt.mp hu) hle

/-- C7 amended witness: at time 7200000 on the ordered window
`[0, 4000000]`, the append shape holds and the pruned window after
`checkRateLimit` contains only last-hour timestamps. -/
theorem whl_c7_amended_witness :
    recordMessageSent 7200000 [0, 4000000] = [0, 4000000, 7200000]
    ∧ (∀ t ∈ (checkRateLimit 7200000 [0, 4000000]).1, (7200000 : Int) - oneHourMs ≤ t) := by
  have h := whl_c7_amended 7200000 [0, 4000000] (by decide)
  exact ⟨h.1, h.2⟩

-- -------------------------
-- Campaign input parsing (content.js, lines 2720-2734)
-- -------------------------

/-- A parsed contact entry (`{ number, name }` objects built by
`parseCampaignLines`). -/
structure ContactEntry where
  number : List Char
  name : List Char
deriving DecidableEq, Repr

/-- One iteration of the `for (const line of lines)` body of
`parseCampaignLines`: split the line on commas, trim the parts, keep digits
and `+` of the first part, take the second part as the name, skip the line
when no number characters remain, and prefix `+` when absent. -/
def parseLine (line : List Char) : Option ContactEntry :=
  let parts := (splitOnChar ',' line).map trimChars
  let number := (parts.headD []).filter digitOrPlus
  let name := match parts with
    | _ :: n :: _ => n
    | _ => ([] : List Char)
  if number = [] then none
  else if number.head? = some '+' then some ⟨number, name⟩
  else some ⟨'+' :: number, name⟩

/-- The `entries` array of `parseCampaignLines` before deduplication: split
the raw text into lines (`/\r?\n/` — the trailing `\r` of a CRLF line is
removed by the subsequent `trim` in either reading), trim them, drop empty
lines, and parse each remaining line. -/
def parseCampaignEntries (raw : List Char) : List ContactEntry :=
  (((splitOnChar '\n' raw).map trimChars).filter (fun l => !l.isEmpty)).filterMap parseLine

/-- `new Map()` deduplication step: `map.set(e.number, e)` replaces the value
of an existing key in place (keeping its original position) and appends a new
key at the end. -/
def insertMap : List ContactEntry → ContactEntry → List ContactEntry
  | [], e => [e]
  | x :: rest, e => if x.number = e.number then e :: rest else x :: insertMap rest e

/-- `for (const e of entries) map.set(e.number, e)` followed by
`Array.from(map.values())`. -/
def dedupByNumber (l : List ContactEntry) : List ContactEntry :=
  l.foldl insertMap []

/-- `parseCampaignLines` (content.js, lines 2720-2734). -/
def parseCampaignLines (raw : List Char) : List ContactEntry :=
  dedupByNumber (parseCampaignEntries raw)

/-- `Map.prototype.get`-style lookup used to reason about the dedup fold. -/
def findByNumber : List ContactEntry → List Char → Option ContactEntry
  | [], _ => none
  | x :: rest, k => if x.number = k then some x else findByNumber rest k

-- Lemmas about insertMap / dedupByNumber.

theorem mem_keys_insertMap (m : List ContactEntry) (e : ContactEntry) (k : List Char) :
    k ∈ (insertMap m e).map ContactEntry.number
      ↔ k ∈ m.map ContactEntry.number ∨ k = e.number := by
  induction m with
  | nil => simp [insertMap, eq_comm]
  | cons x rest ih =>
    by_cases hx : x.number = e.number
    · rw [insertMap, if_pos hx]
      simp only [List.map_cons, List.mem_cons, hx]
      tauto
    · rw [insertMap, if_neg hx]
      simp only [List.map_cons, List.mem_cons, ih]
      tauto

theorem nodup_keys_insertMap {m : List ContactEntry} (e : ContactEntry)
    (h : (m.map ContactEntry.number).Nodup) :
    ((insertMap m e).map ContactEntry.number).Nodup := by
  induction m with
  | nil => simp [insertMap]
  | cons x rest ih =>
    rw [List.map_cons, List.nodup_cons] at h
    by_cases hx : x.number = e.number
    · rw [insertMap, if_pos hx, List.map_cons, List.nodup_cons]
      exact ⟨hx ▸ h.1, h.2⟩
    · rw [insertMap, if_neg hx, List.map_cons, List.nodup_cons]
      refine ⟨?_, ih h.2⟩
      intro hmem
      rcases (mem_keys_insertMap rest e x.number).mp hmem with h1 | h1
      · exact h.1 h1
      · exact hx h1

theorem find_insertMap (m : List ContactEntry) (e : ContactEntry) (k : List Char) :
    findByNumber (insertMap m e) k
      = if k = e.number then some e else findByNumber m k := by
  induction m with
  | nil =>
    by_cases hk : k = e.number
    · rw [if_pos hk]
      show (if e.number = k then some e else findByNumber [] k) = some e
      rw [if_pos hk.symm]
    · rw [if_neg hk]
      show (if e.number = k then some e else findByNumber [] k) = findByNumber [] k
      rw [if_neg (fun h : e.number = k => hk h.symm)]
  | cons x rest ih =>
    by_cases hx : x.number = e.number
    · rw [insertMap, if_pos hx]
      by_cases hk : k = e.number
      · rw [if_pos hk, findByNumber, if_pos hk.symm]
      · have hxk : ¬(x.number = k) := fun h => hk (hx ▸ h.symm)
        rw [if_neg hk, findByNumber, if_neg (fun h => hk h.symm), findByNumber, if_neg hxk]
    · rw [insertMap, if_neg hx]
      by_cases hxk : x.number = k
      · have hk : ¬(k = e.number) := fun h => hx (hxk.trans h)
        rw [if_neg hk, findByNumber, if_pos hxk, findByNumber, if_pos hxk]
      · rw [findByNumber, if_neg hxk, ih, findByNumber, if_neg hxk]

theorem mem_insertMap {m : List ContactEntry} {e y : ContactEntry}
    (h : y ∈ insertMap m e) : y ∈ m ∨ y = e := by
  induction m with
  | nil => simpa [insertMap] using h
  | cons x rest ih =>
    by_cases hx : x.number = e.number
    · rw [insertMap, if_pos hx] at h
      rcases List.mem_cons.mp h with h1 | h1
      · exact Or.inr h1
      · exact Or.inl (List.mem_cons.mpr (Or.inr h1))
    · rw [insertMap, if_neg hx] at h
      rcases List.mem_cons.mp h with h1 | h1
      · exact Or.inl (List.mem_cons.mpr (Or.inl h1))
      · rcases ih h1 with h2 | h2
        · exact Or.inl (List.mem_cons.mpr (Or.inr h2))
        · exact Or.inr h2

theorem nodup_keys_dedup_fold (l : List ContactEntry) :
    ∀ m : List ContactEntry, (m.map ContactEntry.number).Nodup →
      (((l.foldl insertMap m)).map ContactEntry.number).Nodup := by
  induction l with
  | nil => intro m h; exact h
  | cons e rest ih =>
    intro m h
    exact ih (insertMap m e) (nodup_keys_insertMap e h)

theorem mem_keys_dedup_fold (l : List ContactEntry) :
    ∀ (m : List ContactEntry) (k : List Char),
      k ∈ (l.foldl insertMap m).map ContactEntry.number
        ↔ k ∈ m.map ContactEntry.number ∨ k ∈ l.map ContactEntry.number := by
  induction l with
  | nil => intro m k; simp
  | cons e rest ih =>
    intro m k
    rw [List.foldl_cons, ih (insertMap m e) k]
    rw [mem_keys_insertMap]
    simp only [List.map_cons, List.mem_cons]
    tauto

theorem find_dedup_fold (l : List ContactEntry) :
    ∀ (m : List ContactEntry) (k : List Char),
      findByNumber (l.foldl insertMap m) k
        = match (l.filter (fun x => decide (x.number = k))).getLast? with
          | some u => some u
          | none => findByNumber m k := by
  induction l with
  | nil => intro m k; rfl
  | cons e rest ih =>
    intro m k
    rw [List.foldl_cons, ih (insertMap m e) k, find_insertMap]
    by_cases he : e.number = k
    · rw [List.filter_cons_of_pos (by simp [he])]
      rcases hrest : (rest.filter (fun x => decide (x.number = k))).getLast? with _ | u
      · have hnil : rest.filter (fun x => decide (x.number = k)) = [] := by
          cases hfil : rest.filter (fun x => decide (x.number = k)) with
          | nil => rfl
          | cons a as => rw [hfil] at hrest; simp [List.getLast?] at hrest
        rw [hnil]
        simp [he]
      · have hcons : ∃ a as, rest.filter (fun x => decide (x.number = k)) = a :: as := by
          cases hfil : rest.filter (fun x => decide (x.number = k)) with
          | nil => rw [hfil] at hrest; simp [List.getLast?] at hrest
          | cons a as => exact ⟨a, as, rfl⟩
        rcases hcons with ⟨a, as, hfil⟩
        rw [hfil]
        rw [hfil] at hrest
        rw [List.getLast?_cons_cons, hrest]
    · rw [List.filter_cons_of_neg (by simp [he])]
      rw [if_neg (fun h : k = e.number => he h.symm)]

theorem mem_dedup_fold {l m : List ContactEntry} {y : ContactEntry}
    (h : y ∈ l.foldl insertMap m) : y ∈ m ∨ y ∈ l := by
  induction l generalizing m with
  | nil => exact Or.inl h
  | cons e rest ih =>
    rw [List.foldl_cons] at h
    rcases ih h with h1 | h1
    · rcases mem_insertMap h1 with h2 | h2
      · exact Or.inl h2
      · exact Or.inr (List.mem_cons.mpr (Or.inl h2))
    · exact Or.inr (List.mem_cons.mpr (Or.inr h1))

theorem find_of_mem_nodup {m : List ContactEntry} {e : ContactEntry}
    (hnd : (m.map ContactEntry.number).Nodup) (hmem : e ∈ m) :
    findByNumber m e.number = some e := by
  induction m with
  | nil => cases hmem
  | cons x rest ih =>
    rw [List.map_cons, List.nodup_cons] at hnd
    rcases List.mem_cons.mp hmem with h | h
    · subst h
      rw [findByNumber, if_pos rfl]
    · have hx : ¬(x.number = e.number) := by
        intro hcontra
        exact hnd.1 (hcontra ▸ List.mem_map_of_mem ContactEntry.number h)
      rw [findByNumber, if_neg hx]
      exact ih hnd.2 h

/-- C8 — `parseCampaignLines` deduplicates by normalized number: the
resulting numbers are pairwise distinct, exactly the numbers parsed from the
input appear, and for each resulting entry the data is the one of the
last-seen line with that number. -/
theorem whl_c8_parse_dedup (raw : List Char) :
    ((parseCampaignLines raw).map ContactEntry.number).Nodup
    ∧ (∀ k, k ∈ (parseCampaignEntries raw).map ContactEntry.number
        ↔ k ∈ (parseCampaignLines raw).map ContactEntry.number)
    ∧ (∀ e ∈ parseCampaignLines raw,
        ((parseCampaignEntries raw).filter
          (fun x => decide (x.number = e.number))).getLast? = some e) := by
  refine ⟨?_, ?_, ?_⟩
  · exact nodup_keys_dedup_fold (parseCampaignEntries raw) [] (by simp)
  · intro k
    have h := mem_keys_dedup_fold (parseCampaignEntries raw) [] k
    rw [parseCampaignLines, dedupByNumber]
    rw [h]
    simp
  · intro e he
    have hnd : ((parseCampaignLines raw).map ContactEntry.number).Nodup :=
      nodup_keys_dedup_fold (parseCampaignEntries raw) [] (by simp)
    have hfind : findByNumber (parseCampaignLines raw) e.number = some e :=
      find_of_mem_nodup hnd he
    have hfold := find_dedup_fold (parseCampaignEntries raw) [] e.number
    rw [parseCampaignLines, dedupByNumber] at hfind
    rw [hfind] at hfold
    rcases hlast : ((parseCampaignEntries raw).filter
        (fun x => decide (x.number = e.number))).getLast? with _ | u
    · rw [hlast] at hfold
      have hcontra : (some e : Option ContactEntry) = none := hfold
      cases hcontra
    · rw [hlast] at hfold
      rw [hlast]
      have hsome : (some e : Option ContactEntry) = some u := hfold
      exact hsome.symm

/-- C8 witness: on the concrete list `"111,Ana\n222\n111,Carla"` the two
lines for `+111` collapse into one entry carrying the last-seen name, and the
theorem's per-entry conclusions hold for the deduplicated head entry. -/
theorem whl_c8_parse_dedup_witness :
    parseCampaignLines ("111,Ana\n222\n111,Carla".toList)
      = [⟨"+111".toList, "Carla".toList⟩, ⟨"+222".toList, []⟩]
    ∧ ((parseCampaignEntries ("111,Ana\n222\n111,Carla".toList)).filter
        (fun x => decide (x.number = ("+111".toList : List Char)))).getLast?
      = some ⟨"+111".toList, "Carla".toList⟩ := by
  constructor
  · decide
  · exact (whl_c8_parse_dedup ("111,Ana\n222\n111,Carla".toList)).2.2
      ⟨"+111".toList, "Carla".toList⟩ (by decide)

/-- C9 counterexample — the normalization paths do not confine `+` to the
first position: `normalizePhoneNumber "12+3"` keeps the interior plus sign
and prefixes `+55`, producing `"+5512+3"`, which contains a `+` after the
first character, contradicting the claimed invariant. -/
theorem whl_c9_counterexample :
    normalizePhoneNumber ("12+3".toList) = "+5512+3".toList
    ∧ '+' ∈ (normalizePhoneNumber ("12+3".toList)).drop 1 := by
  constructor
  · decide
  · decide

/-- C9 (amended) — every number produced by `normalizePhoneNumber` and by
`parseCampaignLines` starts with `+` and contains only digits and `+`
characters; the digits-with-single-leading-`+` invariant holds whenever the
input itself contains no stray `+`, because the normalization preserves
rather than strips non-leading plus signs. -/
theorem whl_c9_amended :
    (∀ s : List Char,
      (normalizePhoneNumber s).head? = some '+'
      ∧ (∀ c ∈ normalizePhoneNumber s, digitOrPlus c = true)
      ∧ ('+' ∉ s → ∀ c ∈ (normalizePhoneNumber s).drop 1, c.isDigit = true))
    ∧ (∀ raw : List Char, ∀ e ∈ parseCampaignLines raw,
        e.number.head? = some '+' ∧ ∀ c ∈ e.number, digitOrPlus c = true) := by
  constructor
  · intro s
    refine ⟨normalizePhoneNumber_head s, normalizePhoneNumber_chars s, ?_⟩
    intro hplus c hc
    have hdigits : ∀ d ∈ s.filter digitOrPlus, d.isDigit = true := by
      intro d hd
      have hmem := List.mem_filter.mp hd
      have hne : d ≠ '+' := fun h => hplus (h ▸ hmem.1)
      have := hmem.2
      unfold digitOrPlus at this
      rcases Bool.or_eq_true_iff.mp this with h | h
      · exact h
      · exact absurd (by simpa using h) hne
    have hnohead : ¬((s.filter digitOrPlus).head? = some '+') := by
      intro h
      have hmem : '+' ∈ s.filter digitOrPlus := by
        cases hfil : s.filter digitOrPlus with
        | nil => rw [hfil] at h; cases h
        | cons a as =>
          rw [hfil] at h
          simp only [List.head?] at h
          cases h
          simp
      exact absurd (hdigits '+' hmem) (by decide)
    unfold normalizePhoneNumber at hc
    rw [if_neg hnohead] at hc
    by_cases h2 : (s.filter digitOrPlus).take 2 = ['5', '5']
        ∧ 12 ≤ (s.filter digitOrPlus).length
    · rw [if_pos h2] at hc
      simp only [List.drop_one, List.tail_cons] at hc
      exact hdigits c hc
    · rw [if_neg h2] at hc
      simp only [List.drop_one, List.tail_cons] at hc
      rcases List.mem_cons.mp hc with h | hc
      · subst h; decide
      · rcases List.mem_cons.mp hc with h | hc
        · subst h; decide
        · exact hdigits c hc
  · intro raw e he
    have hmem : e ∈ parseCampaignEntries raw := by
      rcases mem_dedup_fold he with h | h
      · cases h
      · exact h
    rcases List.mem_filterMap.mp hmem with ⟨line, _, hline⟩
    unfold parseLine at hline
    by_cases hempty : ((((splitOnChar ',' line).map trimChars).headD []).filter digitOrPlus) = []
    · rw [if_pos hempty] at hline; cases hline
    · rw [if_neg hempty] at hline
      by_cases hplus : ((((splitOnChar ',' line).map trimChars).headD []).filter
          digitOrPlus).head? = some '+'
      · rw [if_pos hplus] at hline
        cases hline
        exact ⟨hplus, fun c hc => mem_filter_digitOrPlus hc⟩
      · rw [if_neg hplus] at hline
        cases hline
        refine ⟨rfl, ?_⟩
        intro c hc
        rcases List.mem_cons.mp hc with h | hc
        · subst h; rfl
        · exact mem_filter_digitOrPlus hc

/-- C9 amended witness: on the plus-free input `"11 98765-4321"` the
normalized number is `+` followed by digits only, and the entry parsed from
`"11 98765-4321,Ana"` starts with `+`. -/
theorem whl_c9_amended_witness :
    (normalizePhoneNumber ("11 98765-4321".toList)).head? = some '+'
    ∧ (∀ c ∈ (normalizePhoneNumber ("11 98765-4321".toList)).drop 1, c.isDigit = true)
    ∧ (∀ e ∈ parseCampaignLines ("11 98765-4321,Ana".toList), e.number.head? = some '+') := by
  refine ⟨(whl_c9_amended.1 _).1, (whl_c9_amended.1 _).2.2 (by decide), ?_⟩
  intro e he
  exact (whl_c9_amended.2 _ e he).1

/-- C10 witness-style check on a concrete number (C10's theorem has no
hypothesis; this example documents the computation). -/
theorem whl_c10_example :
    normalizePhoneNumber (normalizePhoneNumber ("11 98765-4321".toList))
      = normalizePhoneNumber ("11 98765-4321".toList) :=
  whl_c10_normalize_idempotent ("11 98765-4321".toList)

-- -------------------------
-- Bounded DOM-polling loops
-- -------------------------

/-- `MAX_COMPOSER_CHECK_ATTEMPTS` (content.js, line 1107). -/
def maxComposerCheckAttempts : Nat := 20

/-- `COMPOSER_CHECK_DELAY_MS` (content.js, line 1108). -/
def composerCheckDelayMs : Nat := 300

/-- `VALIDATION_SKIP_THRESHOLD` (content.js, line 1109). -/
def validationSkipThreshold : Nat := 15

/-- `PHONE_SUFFIX_MATCH_LENGTH` (content.js, line 1110). -/
def phoneSuffixMatchLength : Nat := 8

/-- The preview-wait attempt budget of `attachMediaAndSend`
(content.js, line 865: `const maxAttempts = 60; // 18 segundos`). -/
def mediaPreviewMaxAttempts : Nat := 60

/-- The preview-wait polling interval of `attachMediaAndSend`
(content.js, line 868: `await sleep(300)`). -/
def mediaPreviewDelayMs : Nat := 300

/-- `pat` occurs as a contiguous run inside `xs` (JS `String.includes`). -/
def startsWithSeq : List Char → List Char → Bool
  | [], _ => true
  | _ :: _, [] => false
  | a :: as, b :: bs => a == b && startsWithSeq as bs

/-- JS `haystack.includes(pat)`. -/
def containsSeq (pat : List Char) : List Char → Bool
  | [] => startsWithSeq pat []
  | c :: rest => startsWithSeq pat (c :: rest) || containsSeq pat rest

/-- JS `s.slice(-n)`: the last `n` characters (the whole string when it is
shorter than `n`). -/
def lastN (n : Nat) (xs : List Char) : List Char :=
  xs.drop (xs.length - n)

/-- The chat-identity check of `openChatBySearch` (content.js, lines
1125-1127): the title digits contain the last 8 target digits, or the target
digits contain the last 8 title digits, or the two digit strings are equal. -/
def isCorrectChat (titleDigits digits : List Char) : Bool :=
  containsSeq (lastN phoneSuffixMatchLength digits) titleDigits
  || containsSeq (lastN phoneSuffixMatchLength titleDigits) digits
  || titleDigits == digits

/-- The validation loop of `openChatBySearch` (content.js, lines 1114-1146).
`attempt i = some title` means `findComposer()` succeeded on attempt `i` and
the chat header read `title`; `none` means no composer was visible.  Each
iteration sleeps `COMPOSER_CHECK_DELAY_MS` first; the returned number is the
accumulated sleep time in milliseconds.  After the attempt budget the source
throws, modelled as `.error`. -/
def chatValidateFrom (digits : List Char) (attempt : Nat → Option (List Char)) :
    Nat → Nat → Nat → Except String Bool × Nat
  | _i, elapsed, 0 => (.error "Chat nao abriu (composer nao encontrado ou chat incorreto).", elapsed)
  | i, elapsed, fuel + 1 =>
    let elapsed' := elapsed + composerCheckDelayMs
    match attempt i with
    | some title =>
      if isCorrectChat (title.filter Char.isDigit) digits
          || decide (validationSkipThreshold < i)
      then (.ok true, elapsed')
      else chatValidateFrom digits attempt (i + 1) elapsed' fuel
    | none => chatValidateFrom digits attempt (i + 1) elapsed' fuel

/-- The whole validation loop: 20 attempts starting at index 0. -/
def openChatValidationLoop (digits : List Char) (attempt : Nat → Option (List Char)) :
    Except String Bool × Nat :=
  chatValidateFrom digits attempt 0 0 maxComposerCheckAttempts

/-- Success condition of a single validation attempt `i`: the composer is
present and the title matches (or the skip threshold `i > 15` is passed). -/
def chatOpenSuccessAt (digits : List Char) (attempt : Nat → Option (List Char)) (i : Nat) : Bool :=
  match attempt i with
  | some title =>
    isCorrectChat (title.filter Char.isDigit) digits || decide (validationSkipThreshold < i)
  | none => false

/-- `findElementWithRetry` (content.js, lines 421-428): up to `maxAttempts`
probes at `delayMs` intervals, sleeping after each failed probe; returns the
attempt index on success together with the accumulated sleep time. -/
def findRetryFrom (found : Nat → Bool) (delayMs : Nat) :
    Nat → Nat → Nat → Option Nat × Nat
  | _i, elapsed, 0 => (none, elapsed)
  | i, elapsed, fuel + 1 =>
    if found i then (some i, elapsed)
    else findRetryFrom found delayMs (i + 1) (elapsed + delayMs) fuel

/-- `findElementWithRetry(selectorKey, maxAttempts = 10, delayMs = 300)`. -/
def findElementWithRetry (found : Nat → Bool) (maxAttempts delayMs : Nat) :
    Option Nat × Nat :=
  findRetryFrom found delayMs 0 0 maxAttempts

/-- The file-input wait of `attachMediaAndSend` (content.js, lines 831-841):
5 probe-then-sleep attempts at 300ms. -/
def fileInputWait (found : Nat → Bool) : Option Nat × Nat :=
  findRetryFrom found 300 0 0 5

/-- The media-preview wait of `attachMediaAndSend` (content.js, lines
864-890): up to 60 attempts, each sleeping 300ms before probing for the
dialog send button. -/
def mediaPreviewWaitFrom (found : Nat → Bool) : Nat → Nat → Nat → Option Nat × Nat
  | _i, elapsed, 0 => (none, elapsed)
  | i, elapsed, fuel + 1 =>
    let elapsed' := elapsed + mediaPreviewDelayMs
    if found i then (some i, elapsed')
    else mediaPreviewWaitFrom found (i + 1) elapsed' fuel

/-- The whole media-preview wait. -/
def mediaPreviewWait (found : Nat → Bool) : Option Nat × Nat :=
  mediaPreviewWaitFrom found 0 0 mediaPreviewMaxAttempts

theorem exists_lt_succ_shift (P : Nat → Prop) (i fuel : Nat) :
    (∃ k, k < fuel + 1 ∧ P (i + k)) ↔ P i ∨ ∃ k, k < fuel ∧ P (i + 1 + k) := by
  constructor
  · rintro ⟨k, hk, hp⟩
    cases k with
    | zero => exact Or.inl (by simpa using hp)
    | succ m =>
      refine Or.inr ⟨m, by omega, ?_⟩
      have : i + 1 + m = i + (m + 1) := by omega
      rw [this]
      exact hp
  · rintro (hp | ⟨k, hk, hp⟩)
    · exact ⟨0, by omega, by simpa using hp⟩
    · refine ⟨k + 1, by omega, ?_⟩
      have : i + (k + 1) = i + 1 + k := by omega
      rw [this]
      exact hp

theorem chatValidate_ok_iff (digits : List Char) (attempt : Nat → Option (List Char)) :
    ∀ (fuel i elapsed : Nat),
      (chatValidateFrom digits attempt i elapsed fuel).1 = .ok true
        ↔ ∃ k, k < fuel ∧ chatOpenSuccessAt digits attempt (i + k) = true := by
  intro fuel
  induction fuel with
  | zero =>
    intro i elapsed
    constructor
    · intro h; cases h
    · rintro ⟨k, hk, _⟩; omega
  | succ fuel ih =>
    intro i elapsed
    rw [exists_lt_succ_shift (fun n => chatOpenSuccessAt digits attempt n = true) i fuel]
    cases hA : attempt i with
    | some title =>
      by_cases hc : (isCorrectChat (title.filter Char.isDigit) digits
          || decide (validationSkipThreshold < i)) = true
      · have hres : (chatValidateFrom digits attempt i elapsed (fuel + 1)).1 = .ok true := by
          simp only [chatValidateFrom, hA]
          rw [if_pos hc]
        rw [hres]
        have hsucc : chatOpenSuccessAt digits attempt i = true := by
          rw [chatOpenSuccessAt, hA]; exact hc
        exact ⟨fun _ => Or.inl hsucc, fun _ => rfl⟩
      · have hres : chatValidateFrom digits attempt i elapsed (fuel + 1)
            = chatValidateFrom digits attempt (i + 1) (elapsed + composerCheckDelayMs) fuel := by
          simp only [chatValidateFrom, hA]
          rw [if_neg hc]
        rw [hres, ih (i + 1) (elapsed + composerCheckDelayMs)]
        have hsucc : chatOpenSuccessAt digits attempt i = false := by
          rw [chatOpenSuccessAt, hA]
          exact Bool.not_eq_true _ ▸ (by simpa using hc)
        constructor
        · intro h; exact Or.inr h
        · rintro (h | h)
          · rw [hsucc] at h; cases h
          · exact h
    | none =>
      have hres : chatValidateFrom digits attempt i elapsed (fuel + 1)
          = chatValidateFrom digits attempt (i + 1) (elapsed + composerCheckDelayMs) fuel := by
        simp only [chatValidateFrom, hA]
      rw [hres, ih (i + 1) (elapsed + composerCheckDelayMs)]
      have hsucc : chatOpenSuccessAt digits attempt i = false := by
        rw [chatOpenSuccessAt, hA]
      constructor
      · intro h; exact Or.inr h
      · rintro (h | h)
        · rw [hsucc] at h; cases h
        · exact h

theorem chatValidate_result (digits : List Char) (attempt : Nat → Option (List Char)) :
    ∀ (fuel i elapsed : Nat),
      (chatValidateFrom digits attempt i elapsed fuel).1 = .ok true
      ∨ (chatValidateFrom digits attempt i elapsed fuel).1
          = .error "Chat nao abriu (composer nao encontrado ou chat incorreto)." := by
  intro fuel
  induction fuel with
  | zero => intro i elapsed; exact Or.inr rfl
  | succ fuel ih =>
    intro i elapsed
    cases hA : attempt i with
    | some title =>
      by_cases hc : (isCorrectChat (title.filter Char.isDigit) digits
          || decide (validationSkipThreshold < i)) = true
      · left
        simp only [chatValidateFrom, hA]
        rw [if_pos hc]
      · have hres : chatValidateFrom digits attempt i elapsed (fuel + 1)
            = chatValidateFrom digits attempt (i + 1) (elapsed + composerCheckDelayMs) fuel := by
          simp only [chatValidateFrom, hA]
          rw [if_neg hc]
        rw [hres]
        exact ih (i + 1) _
    | none =>
      have hres : chatValidateFrom digits attempt i elapsed (fuel + 1)
          = chatValidateFrom digits attempt (i + 1) (elapsed + composerCheckDelayMs) fuel := by
        simp only [chatValidateFrom, hA]
      rw [hres]
      exact ih (i + 1) _

/-- C4 — The chat-open validation loop polls at most 20 attempts; it returns
success exactly when some attempt within the budget finds a composer and
either the open chat's digits share the 8-digit suffix with the target (in
either direction, or are equal) or the attempt index exceeds the skip
threshold (15); and if no composer ever appears within the budget it fails
with the chat-open error. -/
theorem whl_c4_chat_open_validation (digits : List Char) (attempt : Nat → Option (List Char)) :
    ((openChatValidationLoop digits attempt).1 = .ok true
      ↔ ∃ i, i < maxComposerCheckAttempts ∧ chatOpenSuccessAt digits attempt i = true)
    ∧ ((∀ i, i < maxComposerCheckAttempts → attempt i = none) →
        (openChatValidationLoop digits attempt).1
          = .error "Chat nao abriu (composer nao encontrado ou chat incorreto).") := by
  constructor
  · rw [openChatValidationLoop]
    rw [chatValidate_ok_iff digits attempt maxComposerCheckAttempts 0 0]
    constructor
    · rintro ⟨k, hk, hp⟩; exact ⟨k, hk, by simpa using hp⟩
    · rintro ⟨k, hk, hp⟩; exact ⟨k, hk, by simpa using hp⟩
  · intro hnone
    rcases chatValidate_result digits attempt maxComposerCheckAttempts 0 0 with h | h
    · exfalso
      rw [chatValidate_ok_iff digits attempt maxComposerCheckAttempts 0 0] at h
      rcases h with ⟨k, hk, hp⟩
      rw [chatOpenSuccessAt] at hp
      rw [hnone (0 + k) (by omega)] at hp
      cases hp
    · exact h

/-- C4 witness: with no composer ever visible the loop fails with the
chat-open error; with a composer appearing on attempt 2 under a matching
title the loop succeeds. -/
theorem whl_c4_chat_open_validation_witness :
    (openChatValidationLoop ("5511999990001".toList) (fun _ => none)).1
      = .error "Chat nao abriu (composer nao encontrado ou chat incorreto)."
    ∧ (openChatValidationLoop ("5511999990001".toList)
        (fun i => if i = 2 then some ("+55 11 99999-0001".toList) else none)).1
      = .ok true := by
  constructor
  · exact (whl_c4_chat_open_validation ("5511999990001".toList) (fun _ => none)).2
      (fun i _ => rfl)
  · exact (whl_c4_chat_open_validation ("5511999990001".toList)
      (fun i => if i = 2 then some ("+55 11 99999-0001".toList) else none)).1.mpr
      ⟨2, by decide, by decide⟩

theorem findRetryFrom_elapsed (found : Nat → Bool) (delayMs : Nat) :
    ∀ (fuel i elapsed : Nat),
      (findRetryFrom found delayMs i elapsed fuel).2 ≤ elapsed + fuel * delayMs
      ∧ ((findRetryFrom found delayMs i elapsed fuel).1 = none →
          (findRetryFrom found delayMs i elapsed fuel).2 = elapsed + fuel * delayMs) := by
  intro fuel
  induction fuel with
  | zero => intro i elapsed; exact ⟨by simp [findRetryFrom], fun _ => by simp [findRetryFrom]⟩
  | succ fuel ih =>
    intro i elapsed
    by_cases hf : found i = true
    · have hres : findRetryFrom found delayMs i elapsed (fuel + 1) = (some i, elapsed) := by
        rw [findRetryFrom, if_pos hf]
      rw [hres]
      exact ⟨by simp, fun h => by cases h⟩
    · have hres : findRetryFrom found delayMs i elapsed (fuel + 1)
          = findRetryFrom found delayMs (i + 1) (elapsed + delayMs) fuel := by
        rw [findRetryFrom, if_neg hf]
      rw [hres]
      have harith : elapsed + delayMs + fuel * delayMs = elapsed + (fuel + 1) * delayMs := by ring
      refine ⟨?_, ?_⟩
      · have := (ih (i + 1) (elapsed + delayMs)).1
        omega
      · intro h
        have := (ih (i + 1) (elapsed + delayMs)).2 h
        omega

theorem chatValidate_elapsed (digits : List Char) (attempt : Nat → Option (List Char)) :
    ∀ (fuel i elapsed : Nat),
      (chatValidateFrom digits attempt i elapsed fuel).2
          ≤ elapsed + fuel * composerCheckDelayMs
      ∧ (∀ e : String, (chatValidateFrom digits attempt i elapsed fuel).1 = .error e →
          (chatValidateFrom digits attempt i elapsed fuel).2
            = elapsed + fuel * composerCheckDelayMs) := by
  intro fuel
  induction fuel with
  | zero =>
    intro i elapsed
    exact ⟨by simp [chatValidateFrom], fun e _ => by simp [chatValidateFrom]⟩
  | succ fuel ih =>
    intro i elapsed
    have harith : elapsed + composerCheckDelayMs + fuel * composerCheckDelayMs
        = elapsed + (fuel + 1) * composerCheckDelayMs := by ring
    cases hA : attempt i with
    | some title =>
      by_cases hc : (isCorrectChat (title.filter Char.isDigit) digits
          || decide (validationSkipThreshold < i)) = true
      · have hres : chatValidateFrom digits attempt i elapsed (fuel + 1)
            = (.ok true, elapsed + composerCheckDelayMs) := by
          simp only [chatValidateFrom, hA]
          rw [if_pos hc]
        rw [hres]
        refine ⟨by simp; omega, ?_⟩
        intro e h
        cases h
      · have hres : chatValidateFrom digits attempt i elapsed (fuel + 1)
            = chatValidateFrom digits attempt (i + 1) (elapsed + composerCheckDelayMs) fuel := by
          simp only [chatValidateFrom, hA]
          rw [if_neg hc]
        rw [hres]
        refine ⟨?_, ?_⟩
        · have := (ih (i + 1) (elapsed + composerCheckDelayMs)).1
          omega
        · intro e h
          have := (ih (i + 1) (elapsed + composerCheckDelayMs)).2 e h
          omega
    | none =>
      have hres : chatValidateFrom digits attempt i elapsed (fuel + 1)
          = chatValidateFrom digits attempt (i + 1) (elapsed + composerCheckDelayMs) fuel := by
        simp only [chatValidateFrom, hA]
      rw [hres]
      refine ⟨?_, ?_⟩
      · have := (ih (i + 1) (elapsed + composerCheckDelayMs)).1
        omega
      · intro e h
        have := (ih (i + 1) (elapsed + composerCheckDelayMs)).2 e h
        omega

theorem mediaPreviewWaitFrom_elapsed (found : Nat → Bool) :
    ∀ (fuel i elapsed : Nat),
      (mediaPreviewWaitFrom found i elapsed fuel).2 ≤ elapsed + fuel * mediaPreviewDelayMs
      ∧ ((mediaPreviewWaitFrom found i elapsed fuel).1 = none →
          (mediaPreviewWaitFrom found i elapsed fuel).2
            = elapsed + fuel * mediaPreviewDelayMs) := by
  intro fuel
  induction fuel with
  | zero =>
    intro i elapsed
    exact ⟨by simp [mediaPreviewWaitFrom], fun _ => by simp [mediaPreviewWaitFrom]⟩
  | succ fuel ih =>
    intro i elapsed
    have harith : elapsed + mediaPreviewDelayMs + fuel * mediaPreviewDelayMs
        = elapsed + (fuel + 1) * mediaPreviewDelayMs := by ring
    by_cases hf : found i = true
    · have hres : mediaPreviewWaitFrom found i elapsed (fuel + 1)
          = (some i, elapsed + mediaPreviewDelayMs) := by
        rw [mediaPreviewWaitFrom, if_pos hf]
      rw [hres]
      refine ⟨by simp; omega, fun h => by cases h⟩
    · have hres : mediaPreviewWaitFrom found i elapsed (fuel + 1)
          = mediaPreviewWaitFrom found (i + 1) (elapsed + mediaPreviewDelayMs) fuel := by
        rw [mediaPreviewWaitFrom, if_neg hf]
      rw [hres]
      refine ⟨?_, ?_⟩
      · have := (ih (i + 1) (elapsed + mediaPreviewDelayMs)).1
        omega
      · intro h
        have := (ih (i + 1) (elapsed + mediaPreviewDelayMs)).2 h
        omega

/-- C5 counterexample — the media-preview wait of `attachMediaAndSend` is
bounded by 60 attempts of 300ms (18 seconds), not "about 50 attempts"
(~15 seconds) as claimed: with the send button never appearing the wait
consumes exactly 18000ms, which exceeds the claimed ~15s worst case. -/
theorem whl_c5_counterexample :
    mediaPreviewWait (fun _ => false) = (none, 18000)
    ∧ mediaPreviewMaxAttempts = 60
    ∧ mediaPreviewMaxAttempts ≠ 50
    ∧ ¬(mediaPreviewMaxAttempts * mediaPreviewDelayMs ≤ 15000) := by
  refine ⟨by decide, rfl, by decide, by decide⟩

/-- C5 (amended) — every modelled DOM-polling wait performs at most its fixed
number of attempts at its fixed interval and then returns or fails: the
generic `findElementWithRetry` within `maxAttempts * delayMs`; the chat-open
validation loop within 20 × 300ms = 6000ms (exactly 6000ms when it fails);
the media-preview wait within 60 × 300ms = 18000ms (exactly 18000ms when the
button never appears); the file-input wait within 5 × 300ms. -/
theorem whl_c5_bounded_polling :
    (∀ (found : Nat → Bool) (maxAttempts delayMs : Nat),
      (findElementWithRetry found maxAttempts delayMs).2 ≤ maxAttempts * delayMs
      ∧ ((findElementWithRetry found maxAttempts delayMs).1 = none →
          (findElementWithRetry found maxAttempts delayMs).2 = maxAttempts * delayMs))
    ∧ (∀ (digits : List Char) (attempt : Nat → Option (List Char)),
        (openChatValidationLoop digits attempt).2
            ≤ maxComposerCheckAttempts * composerCheckDelayMs
        ∧ (∀ e : String, (openChatValidationLoop digits attempt).1 = .error e →
            (openChatValidationLoop digits attempt).2 = 6000))
    ∧ maxComposerCheckAttempts * composerCheckDelayMs = 6000
    ∧ (∀ found : Nat → Bool,
        (mediaPreviewWait found).2 ≤ mediaPreviewMaxAttempts * mediaPreviewDelayMs
        ∧ ((mediaPreviewWait found).1 = none → (mediaPreviewWait found).2 = 18000))
    ∧ mediaPreviewMaxAttempts * mediaPreviewDelayMs = 18000
    ∧ (∀ found : Nat → Bool, (fileInputWait found).2 ≤ 5 * 300) := by
  refine ⟨?_, ?_, by decide, ?_, by decide, ?_⟩
  · intro found maxAttempts delayMs
    have h := findRetryFrom_elapsed found delayMs maxAttempts 0 0
    exact ⟨by simpa using h.1, fun hn => by simpa using h.2 hn⟩
  · intro digits attempt
    have h := chatValidate_elapsed digits attempt maxComposerCheckAttempts 0 0
    refine ⟨by simpa using h.1, ?_⟩
    intro e he
    have := h.2 e he
    simpa using this
  · intro found
    have h := mediaPreviewWaitFrom_elapsed found mediaPreviewMaxAttempts 0 0
    exact ⟨by simpa using h.1, fun hn => by simpa using h.2 hn⟩
  · intro found
    have h := findRetryFrom_elapsed found 300 5 0 0
    exact by simpa using h.1

/-- C5 amended witness: the chat-open loop with no composer fails after
exactly 6000ms; the media-preview wait with no button takes exactly 18000ms;
a `findElementWithRetry` probe that never succeeds sleeps 10 × 300ms. -/
theorem whl_c5_bounded_polling_witness :
    (openChatValidationLoop ("5511999990001".toList) (fun _ => none)).2 = 6000
    ∧ (mediaPreviewWait (fun _ => false)).2 = 18000
    ∧ (findElementWithRetry (fun _ => false) 10 300).2 = 10 * 300 := by
  refine ⟨?_, ?_, ?_⟩
  · exact (whl_c5_bounded_polling.2.1 ("5511999990001".toList) (fun _ => none)).2
      "Chat nao abriu (composer nao encontrado ou chat incorreto)." (by rfl)
  · exact (whl_c5_bounded_polling.2.2.2.1 (fun _ => false)).2 (by decide)
  · exact (whl_c5_bounded_polling.1 (fun _ => false) 10 300).2 (by decide)

-- -------------------------
-- Campaign Runner state machine (content.js, lines 2703, 2936-3123)
-- -------------------------

/-- Status values that appear in the persisted record and the final report:
the persisted `status` field is `'running'` or `'aborted'`; the end-of-run
report distinguishes completed from user-interrupted. -/
inductive RunStage
  | running
  | aborted
  | completed
deriving DecidableEq, Repr

/-- One record persisted by `CampaignStorage.save` (content.js 2949-2955 and
3030-3036).  The source also stores a `startedAt` timestamp, irrelevant to
the claims and omitted. -/
structure Snapshot where
  entries : List ContactEntry
  message : List Char
  cursor : Nat
  status : RunStage
deriving DecidableEq, Repr

/-- Environment observations for one loop iteration `i` of
`executeDomCampaign`: whether the abort flag is seen set at the top-of-loop
check, whether `campStopBtn` is pressed during `waitWhilePaused`, whether the
per-contact step (open chat, insert, send) succeeds or throws, and whether
the stop button is pressed while that step is in flight.  The campaign's
abort state is the monotone OR-accumulation of these samples, mirroring the
fact that `campRun.abort` is only ever set (never cleared) during a run. -/
structure IterObs where
  abortTop : Bool
  abortInPause : Bool
  stepOk : Bool
  abortInStep : Bool
deriving Repr

/-- Result of a run: the sequence of persisted records (in the order they
were written), the final `campRun.cursor`, the final report (aborted versus
completed, content.js 3053-3059), and the indices of the contacts whose
per-contact step was entered. -/
structure RunResult where
  snapshots : List Snapshot
  cursor : Nat
  finalStatus : RunStage
  attempted : List Nat
deriving DecidableEq, Repr

/-- The `for (let i = 0; i < entries.length; i++)` loop of
`executeDomCampaign` (content.js 2960-3046) from iteration `i` on, with
`abort` the current value of `campRun.abort`:
check abort and break; `await waitWhilePaused()` (abort may be set while
paused — since the flag was just seen unset, the second check observes
exactly `abortInPause`); check abort and break; run the per-contact step
inside `try/catch` — the catch swallows any error, so the loop shape does
not depend on `stepOk`; in `finally`, set `cursor := i+1` and persist
`{entries, message, cursor, status}` with status `'aborted'` exactly when
the abort flag is set by now (the flag is monotone during a run: only
`campStopBtn` sets it and nothing clears it before the run ends); continue
with the next contact. -/
def runLoopFrom (entriesAll : List ContactEntry) (msg : List Char) (obs : Nat → IterObs) :
    Nat → Bool → List ContactEntry → RunResult
  | i, abort, [] =>
    { snapshots := [], cursor := i,
      finalStatus := if abort then .aborted else .completed, attempted := [] }
  | i, abort, _e :: rest =>
    if abort || (obs i).abortTop then
      { snapshots := [], cursor := i, finalStatus := .aborted, attempted := [] }
    else if (obs i).abortInPause then
      { snapshots := [], cursor := i, finalStatus := .aborted, attempted := [] }
    else
      let r := runLoopFrom entriesAll msg obs (i + 1) (obs i).abortInStep rest
      { snapshots :=
          { entries := entriesAll, message := msg, cursor := i + 1,
            status := if (obs i).abortInStep then RunStage.aborted else RunStage.running }
          :: r.snapshots,
        cursor := r.cursor, finalStatus := r.finalStatus, attempted := i :: r.attempted }

/-- `executeDomCampaign(entries, msg)` (content.js 2936-3063): resets the
flags, persists the initial `{entries, message, cursor: 0, status:
'running'}` record, runs the loop, and reports aborted or completed. -/
def executeDomCampaign (entries : List ContactEntry) (msg : List Char)
    (obs : Nat → IterObs) : RunResult :=
  let r := runLoopFrom entries msg obs 0 false entries
  { r with snapshots :=
      { entries := entries, message := msg, cursor := 0, status := .running } :: r.snapshots }

/-- One 250ms tick of `waitWhilePaused` (content.js 2759-2763): looping
`while (campRun.paused && !campRun.abort)`.  `paused t` and `abortF t` give
the flag values at tick `t`; the function returns the tick at which the wait
exits (fuel-bounded). -/
def waitWhilePausedTicks (paused abortF : Nat → Bool) : Nat → Nat → Option Nat
  | _t, 0 => none
  | t, fuel + 1 =>
    if paused t && !abortF t then waitWhilePausedTicks paused abortF (t + 1) fuel
    else some t

-- Lemmas about the campaign loop.

theorem runLoop_of_abort (E : List ContactEntry) (m : List Char) (obs : Nat → IterObs)
    (i : Nat) (rest : List ContactEntry) :
    (runLoopFrom E m obs i true rest).attempted = []
    ∧ (runLoopFrom E m obs i true rest).finalStatus = .aborted := by
  cases rest with
  | nil => exact ⟨rfl, rfl⟩
  | cons e rest => constructor <;> simp [runLoopFrom]

theorem runLoop_attempted_bounds (E : List ContactEntry) (m : List Char) (obs : Nat → IterObs) :
    ∀ (rest : List ContactEntry) (j : Nat) (abort : Bool) (i : Nat),
      i ∈ (runLoopFrom E m obs j abort rest).attempted → j ≤ i ∧ i < j + rest.length := by
  intro rest
  induction rest with
  | nil =>
    intro j abort i hi
    simp [runLoopFrom] at hi
  | cons e rest ih =>
    intro j abort i hi
    simp only [runLoopFrom] at hi
    by_cases h1 : (abort || (obs j).abortTop) = true
    · rw [if_pos h1] at hi; simp at hi
    · rw [if_neg h1] at hi
      by_cases h2 : (obs j).abortInPause = true
      · rw [if_pos h2] at hi; simp at hi
      · rw [if_neg h2] at hi
        simp only [List.mem_cons] at hi
        rcases hi with h | h
        · subst h
          exact ⟨Nat.le_refl _, by simp⟩
        · have := ih (j + 1) (obs j).abortInStep i h
          constructor <;> [omega; (simp; omega)]

theorem runLoop_snapshot_mem (E : List ContactEntry) (m : List Char) (obs : Nat → IterObs) :
    ∀ (rest : List ContactEntry) (j : Nat) (abort : Bool) (i : Nat),
      i ∈ (runLoopFrom E m obs j abort rest).attempted →
      ({ entries := E, message := m, cursor := i + 1,
         status := if (obs i).abortInStep then RunStage.aborted else RunStage.running }
        : Snapshot) ∈ (runLoopFrom E m obs j abort rest).snapshots := by
  intro rest
  induction rest with
  | nil => intro j abort i hi; simp [runLoopFrom] at hi
  | cons e rest ih =>
    intro j abort i hi
    simp only [runLoopFrom] at hi ⊢
    by_cases h1 : (abort || (obs j).abortTop) = true
    · rw [if_pos h1] at hi; simp at hi
    · rw [if_neg h1] at hi ⊢
      by_cases h2 : (obs j).abortInPause = true
      · rw [if_pos h2] at hi; simp at hi
      · rw [if_neg h2] at hi ⊢
        simp only [List.mem_cons] at hi ⊢
        rcases hi with h | h
        · subst h
          exact Or.inl rfl
        · exact Or.inr (ih (j + 1) (obs j).abortInStep i h)

theorem runLoop_next_attempted (E : List ContactEntry) (m : List Char) (obs : Nat → IterObs) :
    ∀ (rest : List ContactEntry) (j : Nat) (abort : Bool) (i : Nat),
      i ∈ (runLoopFrom E m obs j abort rest).attempted →
      (obs i).abortInStep = false →
      (obs (i + 1)).abortTop = false →
      (obs (i + 1)).abortInPause = false →
      i + 1 < j + rest.length →
      i + 1 ∈ (runLoopFrom E m obs j abort rest).attempted := by
  intro rest
  induction rest with
  | nil => intro j abort i hi; simp [runLoopFrom] at hi
  | cons e rest ih =>
    intro j abort i hi hstep htop hpause hlt
    simp only [runLoopFrom] at hi ⊢
    by_cases h1 : (abort || (obs j).abortTop) = true
    · rw [if_pos h1] at hi; simp at hi
    · rw [if_neg h1] at hi ⊢
      by_cases h2 : (obs j).abortInPause = true
      · rw [if_pos h2] at hi; simp at hi
      · rw [if_neg h2] at hi ⊢
        simp only [List.mem_cons] at hi ⊢
        rcases hi with h | h
        · subst h
          right
          have hlen : 0 < rest.length := by simp at hlt; omega
          cases rest with
          | nil => simp at hlen
          | cons e2 rest2 =>
            simp only [runLoopFrom]
            rw [hstep]
            have hcond : ((false : Bool) || (obs (i + 1)).abortTop) = false := by
              simp [htop]
            rw [if_neg (by simp [hcond])]
            rw [if_neg (by simp [hpause])]
            simp
        · right
          exact ih (j + 1) (obs j).abortInStep i h hstep htop hpause (by simp at hlt ⊢; omega)

theorem runLoop_obs_irrelevant (E : List ContactEntry) (m : List Char)
    (obs obs2 : Nat → IterObs)
    (hsame : ∀ k, (obs2 k).abortTop = (obs k).abortTop
      ∧ (obs2 k).abortInPause = (obs k).abortInPause
      ∧ (obs2 k).abortInStep = (obs k).abortInStep) :
    ∀ (rest : List ContactEntry) (j : Nat) (abort : Bool),
      runLoopFrom E m obs2 j abort rest = runLoopFrom E m obs j abort rest := by
  intro rest
  induction rest with
  | nil => intro j abort; rfl
  | cons e rest ih =>
    intro j abort
    simp only [runLoopFrom, (hsame j).1, (hsame j).2.1, (hsame j).2.2, ih (j + 1)]

theorem runLoop_completed (E : List ContactEntry) (m : List Char) (obs : Nat → IterObs) :
    ∀ (rest : List ContactEntry) (j : Nat) (abort : Bool),
      (runLoopFrom E m obs j abort rest).finalStatus = .completed →
      abort = false ∧ ∀ k, k < rest.length →
        (obs (j + k)).abortTop = false ∧ (obs (j + k)).abortInPause = false
        ∧ (obs (j + k)).abortInStep = false := by
  intro rest
  induction rest with
  | nil =>
    intro j abort h
    simp only [runLoopFrom] at h
    constructor
    · by_contra habort
      rw [Bool.not_eq_false] at habort
      rw [habort] at h
      simp at h
    · intro k hk; simp at hk
  | cons e rest ih =>
    intro j abort h
    simp only [runLoopFrom] at h
    by_cases h1 : (abort || (obs j).abortTop) = true
    · rw [if_pos h1] at h; simp at h
    · rw [if_neg h1] at h
      by_cases h2 : (obs j).abortInPause = true
      · rw [if_pos h2] at h; simp at h
      · rw [if_neg h2] at h
        have hrec := ih (j + 1) (obs j).abortInStep h
        rcases Bool.or_eq_false_iff.mp (Bool.not_eq_true _ ▸ h1 : (abort || (obs j).abortTop) = false)
          with ⟨habort, htop⟩
        refine ⟨habort, ?_⟩
        intro k hk
        cases k with
        | zero =>
          exact ⟨by simpa using htop, by simpa using (Bool.not_eq_true _).mp h2, by simpa using hrec.1⟩
        | succ k2 =>
          have := hrec.2 k2 (by simp at hk; omega)
          have harith : j + (k2 + 1) = j + 1 + k2 := by omega
          rw [harith]
          exact this

theorem runLoop_status_dichotomy (E : List ContactEntry) (m : List Char) (obs : Nat → IterObs) :
    ∀ (rest : List ContactEntry) (j : Nat) (abort : Bool),
      (runLoopFrom E m obs j abort rest).finalStatus = .aborted
      ∨ (runLoopFrom E m obs j abort rest).finalStatus = .completed := by
  intro rest
  induction rest with
  | nil =>
    intro j abort
    cases abort with
    | false => exact Or.inr rfl
    | true => exact Or.inl rfl
  | cons e rest ih =>
    intro j abort
    simp only [runLoopFrom]
    by_cases h1 : (abort || (obs j).abortTop) = true
    · rw [if_pos h1]; exact Or.inl rfl
    · rw [if_neg h1]
      by_cases h2 : (obs j).abortInPause = true
      · rw [if_pos h2]; exact Or.inl rfl
      · rw [if_neg h2]
        exact ih (j + 1) (obs j).abortInStep

theorem runLoop_abort_in_step (E : List ContactEntry) (m : List Char) (obs : Nat → IterObs) :
    ∀ (rest : List ContactEntry) (j : Nat) (abort : Bool) (i : Nat),
      i ∈ (runLoopFrom E m obs j abort rest).attempted →
      (obs i).abortInStep = true →
      (runLoopFrom E m obs j abort rest).finalStatus = .aborted
      ∧ i + 1 ∉ (runLoopFrom E m obs j abort rest).attempted := by
  intro rest
  induction rest with
  | nil => intro j abort i hi; simp [runLoopFrom] at hi
  | cons e rest ih =>
    intro j abort i hi hstep
    simp only [runLoopFrom] at hi ⊢
    by_cases h1 : (abort || (obs j).abortTop) = true
    · rw [if_pos h1] at hi; simp at hi
    · rw [if_neg h1] at hi ⊢
      by_cases h2 : (obs j).abortInPause = true
      · rw [if_pos h2] at hi; simp at hi
      · rw [if_neg h2] at hi ⊢
        simp only [List.mem_cons] at hi ⊢
        rcases hi with h | h
        · subst h
          rw [hstep]
          have habort := runLoop_of_abort E m obs (i + 1) rest
          refine ⟨habort.2, ?_⟩
          intro hcontra
          rcases hcontra with h | h
          · omega
          · rw [habort.1] at h; simp at h
        · have hrec := ih (j + 1) (obs j).abortInStep i h hstep
          have hbounds := runLoop_attempted_bounds E m obs rest (j + 1) (obs j).abortInStep i h
          refine ⟨hrec.1, ?_⟩
          intro hcontra
          rcases hcontra with hc | hc
          · omega
          · exact hrec.2 hc

/-- C1 — For every contact index `i` the run reaches, whether the
per-contact step succeeds or throws: a record `{entries, message, cursor :=
i+1, status}` is persisted (the `finally` block always runs); the run
proceeds to contact `i+1` unless the entries are exhausted or an abort was
requested; and the whole run result is unchanged when only the per-contact
success/failure bits of the environment change — a per-contact failure never
terminates the run. -/
theorem whl_c1_per_contact_progress (entries : List ContactEntry) (msg : List Char)
    (obs : Nat → IterObs) (i : Nat)
    (hi : i ∈ (executeDomCampaign entries msg obs).attempted) :
    ({ entries := entries, message := msg, cursor := i + 1,
       status := if (obs i).abortInStep then RunStage.aborted else RunStage.running }
      : Snapshot) ∈ (executeDomCampaign entries msg obs).snapshots
    ∧ ((obs i).abortInStep = false → (obs (i + 1)).abortTop = false →
        (obs (i + 1)).abortInPause = false → i + 1 < entries.length →
        i + 1 ∈ (executeDomCampaign entries msg obs).attempted)
    ∧ (∀ obs2 : Nat → IterObs,
        (∀ k, (obs2 k).abortTop = (obs k).abortTop
          ∧ (obs2 k).abortInPause = (obs k).abortInPause
          ∧ (obs2 k).abortInStep = (obs k).abortInStep) →
        executeDomCampaign entries msg obs2 = executeDomCampaign entries msg obs) := by
  have hi0 : i ∈ (runLoopFrom entries msg obs 0 false entries).attempted := hi
  refine ⟨?_, ?_, ?_⟩
  · have := runLoop_snapshot_mem entries msg obs entries 0 false i hi0
    exact List.mem_cons.mpr (Or.inr this)
  · intro hstep htop hpause hlt
    exact runLoop_next_attempted entries msg obs entries 0 false i hi0 hstep htop hpause
      (by simpa using hlt)
  · intro obs2 hsame
    simp only [executeDomCampaign]
    rw [runLoop_obs_irrelevant entries msg obs obs2 hsame entries 0 false]

/-- C1 witness: in a two-contact run with no user intervention, the record
with cursor 1 is persisted, contact 1 is attempted after contact 0, and
flipping the per-contact success bit leaves the run result unchanged. -/
theorem whl_c1_per_contact_progress_witness :
    ({ entries := [⟨"+111".toList, "Ana".toList⟩, ⟨"+222".toList, []⟩],
       message := "oi".toList, cursor := 1, status := RunStage.running } : Snapshot)
      ∈ (executeDomCampaign [⟨"+111".toList, "Ana".toList⟩, ⟨"+222".toList, []⟩]
          ("oi".toList) (fun _ => ⟨false, false, false, false⟩)).snapshots
    ∧ 1 ∈ (executeDomCampaign [⟨"+111".toList, "Ana".toList⟩, ⟨"+222".toList, []⟩]
          ("oi".toList) (fun _ => ⟨false, false, false, false⟩)).attempted
    ∧ executeDomCampaign [⟨"+111".toList, "Ana".toList⟩, ⟨"+222".toList, []⟩]
          ("oi".toList) (fun _ => ⟨false, false, true, false⟩)
        = executeDomCampaign [⟨"+111".toList, "Ana".toList⟩, ⟨"+222".toList, []⟩]
          ("oi".toList) (fun _ => ⟨false, false, false, false⟩) := by
  have h := whl_c1_per_contact_progress
    [⟨"+111".toList, "Ana".toList⟩, ⟨"+222".toList, []⟩] ("oi".toList)
    (fun _ => ⟨false, false, false, false⟩) 0 (by decide)
  refine ⟨h.1, h.2.1 rfl rfl rfl (by decide), ?_⟩
  exact h.2.2 (fun _ => ⟨false, false, true, false⟩) (fun _ => ⟨rfl, rfl, rfl⟩)

/-- C3 — Pause/abort semantics: (1) `waitWhilePaused` spins exactly while
`paused && !abort` holds and exits only once the run is unpaused or aborted,
so the cursor cannot advance during a pause; (2) a run reports Completed
only if no abort was ever observed at any checkpoint; (3) the final report
is always either Aborted or Completed; (4) a stop requested while contact
`i` is in flight lets that contact finish — its `cursor = i+1` record is
still persisted, with status `'aborted'` — after which no further contact is
attempted and the run reports Aborted, not Completed. -/
theorem whl_c3_pause_abort_semantics :
    (∀ (paused abortF : Nat → Bool) (t fuel t2 : Nat),
      waitWhilePausedTicks paused abortF t fuel = some t2 →
      t ≤ t2 ∧ (∀ u, t ≤ u → u < t2 → paused u = true ∧ abortF u = false)
      ∧ (paused t2 = false ∨ abortF t2 = true))
    ∧ (∀ (entries : List ContactEntry) (msg : List Char) (obs : Nat → IterObs),
        (executeDomCampaign entries msg obs).finalStatus = .completed →
        ∀ k, k < entries.length →
          (obs k).abortTop = false ∧ (obs k).abortInPause = false
          ∧ (obs k).abortInStep = false)
    ∧ (∀ (entries : List ContactEntry) (msg : List Char) (obs : Nat → IterObs),
        (executeDomCampaign entries msg obs).finalStatus = .aborted
        ∨ (executeDomCampaign entries msg obs).finalStatus = .completed)
    ∧ (∀ (entries : List ContactEntry) (msg : List Char) (obs : Nat → IterObs) (i : Nat),
        i ∈ (executeDomCampaign entries msg obs).attempted →
        (obs i).abortInStep = true →
        ({ entries := entries, message := msg, cursor := i + 1,
           status := RunStage.aborted } : Snapshot)
          ∈ (executeDomCampaign entries msg obs).snapshots
        ∧ (executeDomCampaign entries msg obs).finalStatus = .aborted
        ∧ i + 1 ∉ (executeDomCampaign entries msg obs).attempted) := by
  refine ⟨?_, ?_, ?_, ?_⟩
  · intro paused abortF t fuel
    induction fuel generalizing t with
    | zero => intro t2 h; cases h
    | succ fuel ih =>
      intro t2 h
      by_cases hcond : (paused t && !abortF t) = true
      · rw [waitWhilePausedTicks, if_pos hcond] at h
        have hrec := ih (t + 1) t2 h
        rcases Bool.and_eq_true_iff.mp hcond with ⟨hp, ha⟩
        refine ⟨by omega, ?_, hrec.2.2⟩
        intro u hu1 hu2
        by_cases hut : u = t
        · subst hut
          exact ⟨hp, by simpa using ha⟩
        · exact hrec.2.1 u (by omega) hu2
      · rw [waitWhilePausedTicks, if_neg hcond] at h
        cases h
        refine ⟨Nat.le_refl t, fun u hu1 hu2 => by omega, ?_⟩
        rcases Bool.and_eq_false_iff.mp ((Bool.not_eq_true _).mp hcond) with hp | ha
        · exact Or.inl hp
        · exact Or.inr (by simpa using ha)
  · intro entries msg obs h
    have := runLoop_completed entries msg obs entries 0 false h
    intro k hk
    simpa using this.2 k hk
  · intro entries msg obs
    exact runLoop_status_dichotomy entries msg obs entries 0 false
  · intro entries msg obs i hi hstep
    have hi0 : i ∈ (runLoopFrom entries msg obs 0 false entries).attempted := hi
    have hsnap := runLoop_snapshot_mem entries msg obs entries 0 false i hi0
    rw [hstep] at hsnap
    have habort := runLoop_abort_in_step entries msg obs entries 0 false i hi0 hstep
    exact ⟨List.mem_cons.mpr (Or.inr (by simpa using hsnap)), habort.1, habort.2⟩

/-- C3 witness: a pause lasting three ticks halts the wait exactly during
those ticks; and in a two-contact run where stop is pressed during contact
0's send, the cursor-1 record is persisted with status aborted, contact 1 is
never attempted, and the run reports Aborted. -/
theorem whl_c3_pause_abort_semantics_witness :
    ((0 : Nat) ≤ 3 ∧ (∀ u, 0 ≤ u → u < 3 →
        (fun t => decide (t < 3)) u = true ∧ (fun _ : Nat => false) u = false)
      ∧ ((fun t => decide (t < 3)) 3 = false ∨ (fun _ : Nat => false) 3 = true))
    ∧ ((executeDomCampaign [⟨"+111".toList, "Ana".toList⟩, ⟨"+222".toList, []⟩]
          ("oi".toList) (fun _ => ⟨false, false, true, true⟩)).finalStatus = RunStage.aborted
      ∧ 1 ∉ (executeDomCampaign [⟨"+111".toList, "Ana".toList⟩, ⟨"+222".toList, []⟩]
          ("oi".toList) (fun _ => ⟨false, false, true, true⟩)).attempted) := by
  constructor
  · exact whl_c3_pause_abort_semantics.1 (fun t => decide (t < 3)) (fun _ => false) 0 10 3
      (by decide)
  · have h := whl_c3_pause_abort_semantics.2.2.2
      [⟨"+111".toList, "Ana".toList⟩, ⟨"+222".toList, []⟩] ("oi".toList)
      (fun _ => ⟨false, false, true, true⟩) 0 (by decide) rfl
    exact ⟨h.2.1, h.2.2⟩

-- -------------------------
-- Run-start paths (content.js 3065-3109 and 163-291)
-- -------------------------

/-- The validation sequence of the `campStartBtn` click handler (content.js
3065-3075): parse the entries, reject an empty list, reject empty
message-and-media, and only then reject when `campRun.running` is already
set.  `rawMsg` is the textarea content (trimmed as in the source). -/
def campStartBtnCheck (running : Bool) (rawNumbers rawMsg : List Char) (hasMedia : Bool) :
    Except String (List ContactEntry) :=
  let entries := parseCampaignLines rawNumbers
  if entries = [] then .error "Cole pelo menos 1 número."
  else if trimChars rawMsg = [] ∧ hasMedia = false then
    .error "Digite a mensagem ou selecione uma mídia."
  else if running = true then .error "Já existe uma execução em andamento."
  else .ok entries

/-- The contact loop of `executeDomCampaignDirectly` (content.js 238-288):
every entry is processed in order, each per-contact error is caught and
swallowed; the function consults no pause/abort/running flag at all.
Returns the indices of the attempted contacts. -/
def directLoop (stepOk : Nat → Bool) : Nat → List ContactEntry → List Nat
  | _i, [] => []
  | i, _e :: rest => i :: directLoop stepOk (i + 1) rest

/-- `executeDomCampaignDirectly(entries, msg, mediaPayload)` (content.js
231-291), the path used by the `EXECUTE_SCHEDULED_CAMPAIGN` and
`SEND_TEAM_MESSAGES` handlers.  The `running` argument is the value of the
UI's `campRun.running` flag at call time: the source function never reads
it (the flag is not even in its scope), which this model makes explicit by
taking and ignoring it. -/
def executeDomCampaignDirectly (running : Bool) (entries : List ContactEntry)
    (msg : List Char) (stepOk : Nat → Bool) : List Nat :=
  directLoop stepOk 0 entries

theorem directLoop_eq_range (stepOk : Nat → Bool) :
    ∀ (l : List ContactEntry) (j : Nat), directLoop stepOk j l = List.range' j l.length := by
  intro l
  induction l with
  | nil => intro j; rfl
  | cons e rest ih =>
    intro j
    rw [directLoop, ih (j + 1), List.length_cons, List.range'_succ]

/-- C2 counterexample — the externally triggered path does not enforce the
single-run rule: with a campaign already running (`running = true`),
`executeDomCampaignDirectly` still attempts contact 0 instead of rejecting
before any contact is processed. -/
theorem whl_c2_counterexample :
    executeDomCampaignDirectly true [⟨"+5511999990001".toList, "Ana".toList⟩]
      ("oi".toList) (fun _ => true) = [0]
    ∧ ¬(executeDomCampaignDirectly true [⟨"+5511999990001".toList, "Ana".toList⟩]
        ("oi".toList) (fun _ => true) = []) := by
  constructor
  · decide
  · decide

/-- C2 (amended) — only the UI start path enforces the single-run rule: the
`campStartBtn` handler rejects with "Já existe uma execução em andamento."
when a run is active (after its entries and message/media validations),
while `executeDomCampaignDirectly` — used by the scheduled-campaign and
team-message paths — ignores the running flag entirely and attempts every
contact regardless. -/
theorem whl_c2_amended :
    (∀ (rawNumbers rawMsg : List Char) (hasMedia : Bool),
      parseCampaignLines rawNumbers ≠ [] →
      ¬(trimChars rawMsg = [] ∧ hasMedia = false) →
      campStartBtnCheck true rawNumbers rawMsg hasMedia
        = .error "Já existe uma execução em andamento.")
    ∧ (∀ (running : Bool) (entries : List ContactEntry) (msg : List Char)
        (stepOk : Nat → Bool),
        executeDomCampaignDirectly running entries msg stepOk
          = executeDomCampaignDirectly false entries msg stepOk)
    ∧ (∀ (running : Bool) (entries : List ContactEntry) (msg : List Char)
        (stepOk stepOk2 : Nat → Bool),
        executeDomCampaignDirectly running entries msg stepOk = List.range entries.length
        ∧ executeDomCampaignDirectly running entries msg stepOk
          = executeDomCampaignDirectly running entries msg stepOk2) := by
  refine ⟨?_, ?_, ?_⟩
  · intro rawNumbers rawMsg hasMedia hentries hmsg
    rw [campStartBtnCheck]
    rw [if_neg hentries, if_neg hmsg, if_pos rfl]
  · intro running entries msg stepOk
    rfl
  · intro running entries msg stepOk stepOk2
    constructor
    · rw [executeDomCampaignDirectly, directLoop_eq_range stepOk entries 0,
        List.range_eq_range']
    · rw [executeDomCampaignDirectly, executeDomCampaignDirectly,
        directLoop_eq_range stepOk entries 0, directLoop_eq_range stepOk2 entries 0]

/-- C2 amended witness: with a run active, the UI path rejects while the
direct path attempts the whole (one-element) list. -/
theorem whl_c2_amended_witness :
    campStartBtnCheck true ("111,Ana".toList) ("oi".toList) false
      = .error "Já existe uma execução em andamento."
    ∧ executeDomCampaignDirectly true [⟨"+111".toList, "Ana".toList⟩] ("oi".toList)
        (fun _ => false) = List.range 1 := by
  constructor
  · exact whl_c2_amended.1 ("111,Ana".toList) ("oi".toList) false (by decide)
      (by intro h; exact absurd h.1 (by decide))
  · exact (whl_c2_amended.2.2 true [⟨"+111".toList, "Ana".toList⟩] ("oi".toList)
      (fun _ => false) (fun _ => false)).1
